import Mathlib

/-!
Verification development for the pymusicxml rhythmic-notation core
(`pymusicxml/music_xml_objects.py`, `pymusicxml/_utilities.py`).

Shallow embedding conventions:
* exact rational duration arithmetic is modelled with `ℚ` (the source uses
  Python floats, which are exact on all the dyadic values the algorithms
  manipulate; the spec stipulates exact rational semantics);
* Python integers are `ℕ`/`ℤ`; `int(math.log2 x)` for `x ≥ 1` is `Nat.log2`;
* Python's built-in `round` (round half to even) is `pythonRound`;
* mutation of node fields is modelled by explicit state passing: a function
  takes the list of leaves and returns the updated list;
* Python dicts (insertion ordered) are modelled as association lists with
  insertion-order preserving update operations.
-/

namespace PMX

/-- Embedding of `_utilities._least_common_multiple`: zero args give 1, one
arg gives it back unchanged, two args give `a * b // gcd(a, b)`, and more
args fold from the right. -/
def leastCommonMultiple : List ℕ → ℕ
  | [] => 1
  | [a] => a
  | a :: rest =>
    let m := leastCommonMultiple rest
    a * m / Nat.gcd a m

/-! ### Measure.render: the measure-wide divisions value (claim C2) -/

/-- Embedding of the divisions computation in `Measure.render`
(music_xml_objects.py lines 1509-1520).  `leafDens` is the list of
`min_denominator()` values of the measure's leaves; `dirDens` is the list of
`Fraction(displacement).limit_denominator(256).denominator` values of the
displaced directions (the result of `_get_beat_division_for_directions` is
their LCM).  `int(math.log2 (1024 / num))` is `Nat.log2 (1024 / num)`: for
`1 ≤ num ≤ 1024` the float argument is ≥ 1 and truncation towards zero is the
floor, and `⌊log2 x⌋ = ⌊log2 ⌊x⌋⌋` for real `x ≥ 1`; for `num > 1024` the
Python expression yields `max(1, 2**negative) = 1`, matching
`max 1 (2 ^ Nat.log2 0) = 1`. -/
def computeDivisions (leafDens dirDens : List ℕ) : ℕ :=
  let num := leastCommonMultiple leafDens
  match dirDens with
  | [] => num
  | _ =>
    let dirLcm := leastCommonMultiple dirDens
    let ideal := dirLcm * num / Nat.gcd dirLcm num
    if ideal ≤ 1024 then ideal
    else num * max 1 (2 ^ Nat.log2 (1024 / num))

/-! ### Duration.get_note_type_and_number_of_dots (claim C5) -/

/-- Embedding of the `Duration._length_to_note_type` dictionary lookup
(`length in _length_to_note_type` / `_length_to_note_type[length]`). -/
def lengthToNoteType (l : ℚ) : Option String :=
  if l = 8 then some "breve"
  else if l = 4 then some "whole"
  else if l = 2 then some "half"
  else if l = 1 then some "quarter"
  else if l = 1/2 then some "eighth"
  else if l = 1/4 then some "16th"
  else if l = 1/8 then some "32nd"
  else if l = 1/16 then some "64th"
  else if l = 1/32 then some "128th"
  else if l = 1/64 then some "256th"
  else if l = 1/128 then some "512th"
  else if l = 1/256 then some "1024th"
  else none

/-- Embedding of `Duration._dot_multiplier`: `(2^(d+1) - 1) / 2^d`. -/
def dotMultiplier (d : ℕ) : ℚ := ((2 : ℚ) ^ (d + 1) - 1) / (2 : ℚ) ^ d

/-- Embedding of the `while` loop of `get_note_type_and_number_of_dots`
(lines 490-497): test the current dot count `dots`; on failure increment it
and raise if the incremented count exceeds `maxDots`, otherwise continue.
Note that the bound is checked only after the increment, so `dots` is tested
unconditionally on entry. -/
def dotsSearch (length : ℚ) (maxDots dots : ℕ) : Except String (String × ℕ) :=
  match lengthToNoteType (length / dotMultiplier dots) with
  | some t => .ok (t, dots)
  | none =>
    if _h : maxDots < dots + 1 then
      .error "Duration length does not resolve to single note type."
    else
      dotsSearch length maxDots (dots + 1)
termination_by maxDots - dots
decreasing_by omega

/-- Embedding of `Duration.get_note_type_and_number_of_dots` (lines 477-497):
an exact ladder entry gets 0 dots, otherwise the dot search starts at one dot
(`dots_multiplier = 1.5`). -/
def getNoteTypeAndNumberOfDots (length : ℚ) (maxDots : ℕ) :
    Except String (String × ℕ) :=
  match lengthToNoteType length with
  | some t => .ok (t, 0)
  | none => dotsSearch length maxDots 1

/-! ### BeamedGroup.render_contents_beaming (claims C3, C4) -/

/-- Python's built-in `round` on exact values: round half to even. -/
def pythonRound (q : ℚ) : ℤ :=
  if q - ⌊q⌋ < 1/2 then ⌊q⌋
  else if q - ⌊q⌋ > 1/2 then ⌊q⌋ + 1
  else if ⌊q⌋ % 2 = 0 then ⌊q⌋ else ⌊q⌋ + 1

/-- Projection of a leaf (Note/Chord/Rest) to the data
`render_contents_beaming` reads and writes: `num_beams()`, `written_length`,
and the mutable `beams` dict (beam level → beam value string, insertion
ordered). -/
structure BLeaf where
  numBeams : ℕ
  writtenLength : ℚ
  beams : List (ℕ × String)
deriving DecidableEq, Repr

/-- Python dict assignment `d[k] = v` on an insertion-ordered association
list: overwrite the first binding of `k` in place, or append a new binding. -/
def setKey : List (ℕ × String) → ℕ → String → List (ℕ × String)
  | [], k, v => [(k, v)]
  | (k', v') :: rest, k, v =>
    if k' = k then (k, v) :: rest else (k', v') :: setKey rest k v

/-- Embedding of the inner `for i, leaf in enumerate(self.contents)` loop of
`render_contents_beaming` at a fixed `depth` (lines 1225-1244).  `t` is the
running `leaf_start_time` and `lastA` the activity of the previous leaf
(`False` on entry, matching `i > 0 and ...`). -/
def loopDepth (depth : ℕ) (t : ℚ) (lastA : Bool) : List BLeaf → List BLeaf
  | [] => []
  | leaf :: rest =>
    let thisA : Bool := decide (depth ≤ leaf.numBeams)
    let nextA : Bool :=
      match rest with
      | [] => false
      | l2 :: _ => decide (depth ≤ l2.numBeams)
    let value : String :=
      if lastA && nextA then "continue"
      else if lastA then "end"
      else if nextA then "begin"
      else if pythonRound (t / (1/2 : ℚ) ^ leaf.numBeams) % 2 = 0 then
        "forward hook"
      else "backward hook"
    let leaf' :=
      if thisA then { leaf with beams := setKey leaf.beams depth value }
      else leaf
    leaf' :: loopDepth depth (t + leaf.writtenLength) thisA rest

/-- Embedding of `max(leaf.num_beams() for leaf in self.contents)` (the
source raises on an empty group; the embedding returns 0, which makes the
depth loop empty). -/
def maxNumBeams (leaves : List BLeaf) : ℕ :=
  leaves.foldl (fun m l => max m l.numBeams) 0

/-- Tests whether the string `"hook"` occurs at the start of a character
list (helper for the Python substring test `"hook" in beam_value`). -/
def charsStartHook : List Char → Bool
  | 'h' :: 'o' :: 'o' :: 'k' :: _ => true
  | _ => false

/-- Embedding of Python's substring test `"hook" in s`. -/
def strHasHook (s : String) : Bool :=
  go s.data
where
  go : List Char → Bool
    | [] => false
    | c :: rest => charsStartHook (c :: rest) || go rest

/-- The outer `for beam_depth in range(1, max + 1)` loop of
`render_contents_beaming` (line 1224). -/
def beamPasses (leaves : List BLeaf) : List BLeaf :=
  (List.range' 1 (maxNumBeams leaves)).foldl
    (fun ls d => loopDepth d 0 false ls) leaves

/-- The final pass of `render_contents_beaming` (lines 1246-1248): a leaf
whose beam values are all hooks has its whole beams dict cleared (this also
leaves a leaf with an empty beams dict empty, as `all` over nothing is
`True`). -/
def clearAllHookLeaves (leaves : List BLeaf) : List BLeaf :=
  leaves.map fun leaf =>
    if leaf.beams.all (fun kv => strHasHook kv.2) then
      { leaf with beams := [] }
    else leaf

/-- Embedding of `BeamedGroup.render_contents_beaming` (lines 1220-1248). -/
def renderContentsBeaming (leaves : List BLeaf) : List BLeaf :=
  clearAllHookLeaves (beamPasses leaves)

/-- Activity of the leaf at index `i` at beam level `d` (a leaf is active
when its note value requires at least `d` beams); out-of-range indices count
as inactive. -/
def activeB (leaves : List BLeaf) (i d : ℕ) : Bool :=
  match leaves[i]? with
  | some l => decide (d ≤ l.numBeams)
  | none => false

/-- Number of beams of the leaf at index `i` (0 when out of range). -/
def nbAt (leaves : List BLeaf) (i : ℕ) : ℕ :=
  match leaves[i]? with
  | some l => l.numBeams
  | none => 0

/-- Cumulative start time (in quarter notes) of the leaf at index `i`. -/
def startTime (leaves : List BLeaf) (i : ℕ) : ℚ :=
  ((leaves.take i).map (·.writtenLength)).sum

/-- Activity of the predecessor of index `i` as the depth loop sees it: for
the head it is the incoming flag (`i > 0 and ...` is false on entry), for a
later leaf it is the activity of the leaf before it. -/
def prevActiveB (leaves : List BLeaf) (la : Bool) (i d : ℕ) : Bool :=
  match i with
  | 0 => la
  | j + 1 => activeB leaves j d

/-- The beam value that one pass of the depth loop computes for the leaf at
index `i`, when that leaf's absolute start time is `t` and the incoming
activity flag of the loop was `la`. -/
def passValue (leaves : List BLeaf) (la : Bool) (t : ℚ) (i d : ℕ) : String :=
  let prevA : Bool := prevActiveB leaves la i d
  let nextA : Bool := activeB leaves (i + 1) d
  if prevA && nextA then "continue"
  else if prevA then "end"
  else if nextA then "begin"
  else if pythonRound (t / (1/2 : ℚ) ^ nbAt leaves i) % 2 = 0 then
    "forward hook"
  else "backward hook"

/-- Modelled from the spec (claim C3 wording): the beam value that the claim
assigns to the leaf at index `i`, active at level `d`: `continue` when both
immediate neighbours are active, `end` when only the preceding one is,
`begin` when only the following one is, and otherwise a hook chosen by the
parity of its cumulative start time measured in units of its own note
value. -/
def specBeamValue (leaves : List BLeaf) (i d : ℕ) : String :=
  let prevA : Bool := i ≠ 0 && activeB leaves (i - 1) d
  let nextA : Bool := activeB leaves (i + 1) d
  if prevA && nextA then "continue"
  else if prevA then "end"
  else if nextA then "begin"
  else if pythonRound (startTime leaves i / (1/2 : ℚ) ^ nbAt leaves i) % 2
      = 0 then "forward hook"
  else "backward hook"

/-- Modelled from the spec (claim C3 wording): the list of levels assigned to
leaf `i` — one entry per level from 1 up to the number of beams its note
value requires, in ascending order. -/
def specAssignedBeams (leaves : List BLeaf) (i : ℕ) : List (ℕ × String) :=
  (List.range' 1 (nbAt leaves i)).map fun d => (d, specBeamValue leaves i d)

/-- Effect on the beams dict of leaf `i` of the passes for the depths listed
in `ds`: each pass at a depth where the leaf is active overwrites that
level's entry. -/
def writeBeamsOver (leaves : List BLeaf) (i : ℕ) (ds : List ℕ)
    (b : List (ℕ × String)) : List (ℕ × String) :=
  ds.foldl
    (fun acc d =>
      if activeB leaves i d then setKey acc d (specBeamValue leaves i d)
      else acc) b

/-- Effect of all passes of the depth loop on the beams dict of leaf `i`. -/
def writeBeams (leaves : List BLeaf) (i : ℕ) (b : List (ℕ × String)) :
    List (ℕ × String) :=
  writeBeamsOver leaves i (List.range' 1 (maxNumBeams leaves)) b

/-- Successive dict assignments of the listed (key, value) pairs. -/
def writePairs (b ps : List (ℕ × String)) : List (ℕ × String) :=
  ps.foldl (fun acc kv => setKey acc kv.1 kv.2) b

/-- Combined per-leaf effect of one full `render_contents_beaming` run on
the leaf at index `i`: all depth passes write into its beams dict, then the
dict is cleared when every value is a hook. -/
def clearWrite (leaves : List BLeaf) (i : ℕ) (x : BLeaf) : BLeaf :=
  if (writeBeams leaves i x.beams).all (fun kv => strHasHook kv.2) then
    { x with beams := [] }
  else { x with beams := writeBeams leaves i x.beams }

/-- Modelled from the spec (claim C3 wording): every leaf carries exactly the
per-level states of `specBeamValue`, except that a leaf all of whose assigned
levels are hooks has its beam map cleared. -/
def specBeaming (leaves : List BLeaf) : List BLeaf :=
  leaves.mapIdx fun i l =>
    let assigned := specAssignedBeams leaves i
    { l with beams :=
        if assigned.all (fun kv =>
            kv.2 = "forward hook" || kv.2 = "backward hook") then []
        else assigned }

/-- Four eighth notes in a row (the concrete beam example of the claims). -/
def fourEighths : List BLeaf :=
  [⟨1, 1/2, []⟩, ⟨1, 1/2, []⟩, ⟨1, 1/2, []⟩, ⟨1, 1/2, []⟩]

/-- An isolated eighth note at cumulative position 0 (even, in eighth-note
units), followed by quarter notes. -/
def isolatedEighthEven : List BLeaf :=
  [⟨1, 1/2, []⟩, ⟨0, 1, []⟩, ⟨0, 1, []⟩]

/-- An isolated eighth note at an odd cumulative position (3 eighth-note
units, after a zero-beam leaf of written length 3/2, e.g. a dotted
quarter). -/
def isolatedEighthOdd : List BLeaf :=
  [⟨0, 3/2, []⟩, ⟨1, 1/2, []⟩, ⟨0, 1, []⟩]

/-! ### Measure.render: voice multiplexing with backups (claim C1) -/

/-- Abstraction of the children appended to the `measure` element by the
voice loop of `Measure.render`: each note/tuplet contributes a `note` item
tagged with its `length_in_divisions`, and a `backup` item carries the
emitted backup duration. -/
inductive MElem where
  | backup (duration : ℕ)
  | note (lengthInDivisions : ℕ)
deriving DecidableEq, Repr

/-- Embedding of the `for i, voice in enumerate(self.voices)` loop of
`Measure.render` (lines 1542-1555): `None` voices are skipped without
touching the accumulator, a populated voice at index `i > 0` is preceded by
one `backup` of the accumulated amount, and the accumulator is reset to the
just-emitted voice's total `length_in_divisions`.  A voice is the list of
`length_in_divisions` values of its elements. -/
def renderVoicesFrom : List (Option (List ℕ)) → ℕ → ℕ → List MElem
  | [], _, _ => []
  | none :: rest, i, amount => renderVoicesFrom rest (i + 1) amount
  | some v :: rest, i, amount =>
    (if 0 < i then [MElem.backup amount] else []) ++ v.map MElem.note ++
      renderVoicesFrom rest (i + 1) v.sum

/-- The full voice-multiplexing output of `Measure.render` for a measure
whose voices are `voices`. -/
def renderMeasureVoices (voices : List (Option (List ℕ))) : List MElem :=
  renderVoicesFrom voices 0 0

/-- Elements emitted before the first rendered voice: when the measure's
first voice slots are `None`, the first populated voice has index `i > 0`
and is preceded by a single backup of duration 0. -/
def leadElems : List (Option (List ℕ)) → List MElem
  | [] => []
  | some _ :: _ => []
  | none :: rest =>
    if (rest.filterMap id).isEmpty then [] else [MElem.backup 0]

/-- The rendered voices joined by single backup elements, each backup
carrying the total length of the voice just emitted. -/
def joinWithBackups : List (List ℕ) → List MElem
  | [] => []
  | [v] => v.map MElem.note
  | v :: v2 :: rest =>
    v.map MElem.note ++ MElem.backup v.sum :: joinWithBackups (v2 :: rest)

/-- Rendered voices as emitted from the second rendered voice slot onwards:
every populated voice is preceded by one backup, the first of them carrying
the running accumulator `amount`. -/
def joinFrom (amount : ℕ) : List (List ℕ) → List MElem
  | [] => []
  | v :: rest => MElem.backup amount :: v.map MElem.note ++ joinFrom v.sum rest

/-- The two-voice 4/4 example at divisions 480: voice 1 holds four quarter
notes (480 ticks each, total 1920), voice 2 holds two quarter notes
(total 960). -/
def exampleVoices : List (Option (List ℕ)) :=
  [some [480, 480, 480, 480], some [480, 480]]

/-- Predicate picking out backup elements. -/
def isBackup : MElem → Bool
  | .backup _ => true
  | .note _ => false

/-! ### Tuplet._set_tuplet_info_for_contents (claim C6) -/

/-- Projection of a leaf to the fields `_set_tuplet_info_for_contents`
writes: the `tuplet_bracket` marker and the duration's `tuplet_ratio`. -/
structure TLeaf where
  tupletBracket : Option String
  tupletRatio : Option (ℕ × ℕ)
deriving DecidableEq, Repr

/-- Writes the `tuplet_bracket` of the last leaf of a list
(`contents[-1].tuplet_bracket = ...`). -/
def setLastBracket (lastValue : String) : List TLeaf → List TLeaf
  | [] => []
  | [l] => [{ l with tupletBracket := some lastValue }]
  | l :: l2 :: rest => l :: setLastBracket lastValue (l2 :: rest)

/-- Embedding of `Tuplet._set_tuplet_info_for_contents` (lines 1296-1306):
`contents[0].tuplet_bracket = "start"`, then
`contents[-1].tuplet_bracket = "stop" if len(self.contents) > 0 else "both"`,
then the ratio is stamped on every leaf's duration.  (On empty contents the
source raises `IndexError`; the embedding returns the empty list.) -/
def setTupletInfoForContents (ratio : ℕ × ℕ) (contents : List TLeaf) :
    List TLeaf :=
  match contents with
  | [] => []
  | first :: rest =>
    let c1 := { first with tupletBracket := some "start" } :: rest
    let lastValue : String := if 0 < contents.length then "stop" else "both"
    let c2 := setLastBracket lastValue c1
    c2.map fun l => { l with tupletRatio := some ratio }

/-! ### Part._validate_slur_numbers (claims C7, C8, C9) -/

/-- A slur event in part-leaf time order: a `StartSlur` or `StopSlur`
carrying its `slur_id`. -/
inductive SlurEvent where
  | start (id : ℕ)
  | stop (id : ℕ)
deriving DecidableEq, Repr

/-- The `input_to_output_numbers` dict: external id → list of output slots,
in insertion order. -/
abbrev SlurState := List (ℕ × List ℕ)

/-- Embedding of `sum(input_to_output_numbers.values(), [])`: all output
slots currently in use. -/
def usedNumbers (st : SlurState) : List ℕ :=
  (st.map (·.2)).flatten

/-- Embedding of the `available_slur_numbers` comprehension (line 1639):
numbers 1..6 not in use by any open external id, in ascending order. -/
def availableSlurNumbers (st : SlurState) : List ℕ :=
  (List.range' 1 6).filter fun x => decide (¬ x ∈ usedNumbers st)

/-- Embedding of `input_to_output_numbers.setdefault(k, []).append(v)` on an
insertion-ordered dict. -/
def setdefaultAppend : SlurState → ℕ → ℕ → SlurState
  | [], k, v => [(k, [v])]
  | (k', l) :: rest, k, v =>
    if k' = k then (k', l ++ [v]) :: rest
    else (k', l) :: setdefaultAppend rest k v

/-- Embedding of `input_to_output_numbers[k].pop(0)` followed by deletion of
the key when its list becomes empty (lines 1652-1654): drop the head of `k`'s
list, removing the binding entirely if nothing remains. -/
def popHeadOrDelete : SlurState → ℕ → SlurState
  | [], _ => []
  | (k', l) :: rest, k =>
    if k' = k then
      match l with
      | [] => rest
      | [_] => rest
      | _ :: x :: xs => (k', x :: xs) :: rest
    else (k', l) :: popHeadOrDelete rest k

/-- One step of `Part._validate_slur_numbers` (lines 1638-1657) on a single
slur event: returns the updated dict, the event with its possibly-rewritten
`slur_id`, and whether a warning was logged.  A `StartSlur` whose id is
itself an available number keeps it; otherwise the lowest available number is
assigned; with none available a warning is logged and the event is left
untouched.  A `StopSlur` pops the front of its id's list (warning when the
id has no open mapping). -/
def slurStep (st : SlurState) (ev : SlurEvent) : SlurState × SlurEvent × Bool :=
  match ev with
  | .start k =>
    let available := availableSlurNumbers st
    if k ∈ available then
      (setdefaultAppend st k k, .start k, false)
    else
      match available with
      | o :: _ => (setdefaultAppend st k o, .start o, false)
      | [] => (st, .start k, true)
  | .stop k =>
    match List.lookup k st with
    | some (o :: _) => (popHeadOrDelete st k, .stop o, false)
    | some [] => (st, .stop k, true)
    | none => (st, .stop k, true)

/-- Folds `slurStep` over the events of a part in time order, starting from
dict state `st`; returns the rewritten events and the number of warnings
logged. -/
def processSlursFrom (st : SlurState) : List SlurEvent → List SlurEvent × ℕ
  | [] => ([], 0)
  | ev :: rest =>
    let s := slurStep st ev
    let r := processSlursFrom s.1 rest
    (s.2.1 :: r.1, (if s.2.2 then 1 else 0) + r.2)

/-- Embedding of the whole renumbering pass of `Part._validate_slur_numbers`:
the dict starts empty. -/
def processSlurEvents (events : List SlurEvent) : List SlurEvent × ℕ :=
  processSlursFrom [] events

/-- A dict state with all six output slots held by open external ids
(used for the overflow scenario of claim C9). -/
def fullSlurState : SlurState :=
  [(10, [1]), (20, [2]), (30, [3]), (40, [4]), (50, [5]), (60, [6])]

/-! ### MusicXMLContainer.__getitem__ (claim C10) -/

/-- Projection of `MusicXMLContainer` to its `contents` list. -/
structure MContainer (α : Type) where
  contents : List α
deriving DecidableEq, Repr

/-- Embedding of `MusicXMLContainer.__getitem__` (lines 181-182): the method
evaluates `self.contents.__getitem__(i)` — raising `IndexError` when `i` is
out of range — but discards the result and falls off the end, returning
`None`.  The state component records that the container is not mutated. -/
def containerGetItem {α : Type} (c : MContainer α) (i : ℕ) :
    MContainer α × Except String (Option α) :=
  match c.contents[i]? with
  | some _ => (c, .ok none)
  | none => (c, .error "IndexError")


/-! ## Generic lemmas about the voice loop (claim C1) -/

/-- From any positive voice index on, the voice loop emits exactly one backup
in front of every populated voice. -/
lemma renderVoicesFrom_pos (voices : List (Option (List ℕ))) :
    ∀ i amount : ℕ, 0 < i →
      renderVoicesFrom voices i amount = joinFrom amount (voices.filterMap id) := by
  induction voices with
  | nil => intro i amount _; rfl
  | cons v rest ih =>
    intro i amount h
    cases v with
    | none =>
      show renderVoicesFrom rest (i + 1) amount = _
      rw [ih (i + 1) amount (by omega)]
      simp [List.filterMap_cons]
    | some vv =>
      show (if 0 < i then [MElem.backup amount] else []) ++ _ ++ _ = _
      rw [if_pos h, ih (i + 1) vv.sum (by omega)]
      simp [List.filterMap_cons, joinFrom]

lemma joinWithBackups_cons (rest : List (List ℕ)) :
    ∀ v, joinWithBackups (v :: rest) = v.map MElem.note ++ joinFrom v.sum rest := by
  induction rest with
  | nil => intro v; simp [joinWithBackups, joinFrom]
  | cons v2 r ih =>
    intro v
    show v.map MElem.note ++ MElem.backup v.sum :: joinWithBackups (v2 :: r) = _
    rw [ih v2]
    simp [joinFrom]

/-- Claim C1: the voice loop of `Measure.render` emits, immediately before
the leaves of each rendered voice after the first rendered one, exactly one
backup whose duration is the total `length_in_divisions` of the voice just
emitted (when the first voice slots are unpopulated, the first rendered voice
is additionally preceded by a single backup of duration 0).  In particular
the two-voice example with totals 1920 and 960 at divisions 480 yields
exactly one backup, of duration 1920, right before the second voice's first
note element. -/
theorem measure_voice_backup :
    (∀ voices : List (Option (List ℕ)),
      renderMeasureVoices voices =
        leadElems voices ++ joinWithBackups (voices.filterMap id))
    ∧ renderMeasureVoices exampleVoices =
        [MElem.note 480, MElem.note 480, MElem.note 480, MElem.note 480,
         MElem.backup 1920, MElem.note 480, MElem.note 480]
    ∧ (renderMeasureVoices exampleVoices).filter isBackup = [MElem.backup 1920] := by
  refine ⟨?_, by decide, by decide⟩
  intro voices
  cases voices with
  | nil => rfl
  | cons v rest =>
    cases v with
    | none =>
      show renderVoicesFrom rest 1 0 = _
      rw [renderVoicesFrom_pos rest 1 0 (by omega)]
      have hf : (none :: rest).filterMap id = rest.filterMap id := by
        simp [List.filterMap_cons]
      show _ = leadElems (none :: rest) ++ joinWithBackups ((none :: rest).filterMap id)
      rw [hf]
      cases h : rest.filterMap id with
      | nil => simp [leadElems, h, joinFrom, joinWithBackups]
      | cons v2 tail =>
        rw [joinWithBackups_cons tail v2]
        simp [leadElems, h, joinFrom]
    | some vv =>
      show (if 0 < 0 then [MElem.backup 0] else []) ++ _ ++ _ = _
      rw [if_neg (by omega), renderVoicesFrom_pos rest 1 vv.sum (by omega)]
      rw [show ((some vv :: rest).filterMap id) = vv :: rest.filterMap id by simp [List.filterMap_cons]]
      rw [joinWithBackups_cons (rest.filterMap id) vv]
      simp [leadElems]

/-! ## Claim C6: tuplet bracket of a single-leaf tuplet -/

/-- Claim C6 (code evaluation at the failing input): a tuplet with exactly
one leaf gets `tuplet_bracket = "stop"`, not `"both"` — the condition
`len(self.contents) > 0` in `_set_tuplet_info_for_contents` is always true
for nonempty contents, so the `"both"` branch is unreachable and the initial
`"start"` marker on the (single) first leaf is overwritten.  Multi-leaf
tuplets do get `"start"`/`"stop"` on the outer leaves. -/
theorem tuplet_single_leaf_gets_stop :
    setTupletInfoForContents (3, 2) [⟨none, none⟩] =
      [⟨some "stop", some (3, 2)⟩]
    ∧ (some "stop" : Option String) ≠ some "both"
    ∧ setTupletInfoForContents (3, 2) [⟨none, none⟩, ⟨none, none⟩, ⟨none, none⟩] =
      [⟨some "start", some (3, 2)⟩, ⟨none, some (3, 2)⟩, ⟨some "stop", some (3, 2)⟩] := by
  refine ⟨by decide, by decide, by decide⟩

/-! ## Claim C10: container subscript returns None -/

/-- Claim C10: `MusicXMLContainer.__getitem__` performs the list access but
never returns its result: for every in-range index the call returns `None`
(not the stored element) and leaves the stored contents unchanged. -/
theorem getitem_returns_none :
    ∀ (α : Type) (c : MContainer α) (i : ℕ), i < c.contents.length →
      (containerGetItem c i).1 = c ∧
      (containerGetItem c i).2 = Except.ok none ∧
      ∀ x, c.contents[i]? = some x →
        (containerGetItem c i).2 ≠ Except.ok (some x) := by
  intro α c i h
  have hx : c.contents[i]? = some c.contents[i] := List.getElem?_eq_getElem h
  refine ⟨?_, ?_, ?_⟩
  · simp [containerGetItem, hx]
  · simp [containerGetItem, hx]
  · intro x _
    simp [containerGetItem, hx]

/-- Witness for `getitem_returns_none` at the container `[5, 7]` and
index 1. -/
theorem getitem_returns_none_witness :
    (containerGetItem (⟨[5, 7]⟩ : MContainer ℕ) 1).1 = ⟨[5, 7]⟩ ∧
    (containerGetItem (⟨[5, 7]⟩ : MContainer ℕ) 1).2 = Except.ok none :=
  ⟨(getitem_returns_none ℕ ⟨[5, 7]⟩ 1 (by decide)).1,
   (getitem_returns_none ℕ ⟨[5, 7]⟩ 1 (by decide)).2.1⟩


/-! ## Slur renumbering (claims C7, C8, C9) -/

/-- The available slur numbers are listed in strictly increasing order. -/
lemma availableSlurNumbers_sorted (st : SlurState) :
    List.Pairwise (· < ·) (availableSlurNumbers st) :=
  (List.pairwise_lt_range' 1 6).filter _

/-- A key that appears in no binding has no lookup result. -/
lemma lookup_eq_none_of_not_mem_keys {β : Type} (k : ℕ) :
    ∀ st : List (ℕ × β), k ∉ st.map Prod.fst → List.lookup k st = none := by
  intro st
  induction st with
  | nil => intro _; rfl
  | cons kv rest ih =>
    obtain ⟨k', l⟩ := kv
    intro h
    simp only [List.map_cons, List.mem_cons] at h
    push_neg at h
    simp [List.lookup, show (k == k') = false from beq_eq_false_iff_ne.mpr h.1,
      ih h.2]

/-- Claim C7, counterexample: re-opening external id 10 while it is still
open does not reuse its output slot — the code allocates the next free slot
(2), while the claim predicts a reuse of slot 1; and a first-ever start with
external id 3 keeps 3 as its output slot, while the claim predicts the
lowest-numbered free slot 1. -/
theorem slur_start_counterexample :
    processSlurEvents [.start 10, .start 10] =
      ([.start 1, .start 2], 0)
    ∧ SlurEvent.start 2 ≠ SlurEvent.start 1
    ∧ processSlurEvents [.start 3] = ([.start 3], 0)
    ∧ SlurEvent.start 3 ≠ SlurEvent.start 1 := by
  refine ⟨by decide, by decide, by decide, by decide⟩

/-- Claim C7, amended: on a start event with external id `K`, if `K` itself
is a number in 1..6 not in use by any open mapping then `K` is kept as the
output slot; otherwise `K` receives the lowest-numbered slot in 1..6 not in
use by any open external id (a re-opened id receives a fresh slot, it does
not reuse the one already open).  With external ids outside 1..6, opening
A then B, closing A, then opening C yields output numbers 1, 2, then 1. -/
theorem slur_start_assignment :
    (∀ (st : SlurState) (k : ℕ), k ∈ availableSlurNumbers st →
      slurStep st (.start k) = (setdefaultAppend st k k, .start k, false))
    ∧ (∀ (st : SlurState) (k : ℕ), k ∉ availableSlurNumbers st →
        availableSlurNumbers st ≠ [] →
        ∃ o, slurStep st (.start k) = (setdefaultAppend st k o, .start o, false)
          ∧ o ∈ availableSlurNumbers st
          ∧ ∀ m ∈ availableSlurNumbers st, o ≤ m)
    ∧ processSlurEvents [.start 10, .start 20, .stop 10, .start 30] =
        ([.start 1, .start 2, .stop 1, .start 1], 0) := by
  refine ⟨?_, ?_, by decide⟩
  · intro st k hk
    simp [slurStep, hk]
  · intro st k hk hne
    have hs := availableSlurNumbers_sorted st
    cases ha : availableSlurNumbers st with
    | nil => exact absurd ha hne
    | cons o rest =>
      rw [ha] at hs hk
      refine ⟨o, ?_, ?_, ?_⟩
      · simp [slurStep, ha, hk]
      · exact List.mem_cons_self o rest
      · intro m hm
        rcases List.mem_cons.mp hm with h | h
        · omega
        · exact le_of_lt ((List.pairwise_cons.mp hs).1 m h)

/-- Witness for `slur_start_assignment`: with id 10 open on slot 1, a start
with fresh external id 20 receives the least free slot. -/
theorem slur_start_assignment_witness :
    ∃ o, slurStep [(10, [1])] (.start 20) =
        (setdefaultAppend [(10, [1])] 20 o, .start o, false)
      ∧ o ∈ availableSlurNumbers [(10, [1])]
      ∧ ∀ m ∈ availableSlurNumbers [(10, [1])], o ≤ m :=
  slur_start_assignment.2.1 [(10, [1])] 20 (by decide) (by decide)

/-- Claim C8, counterexample: with external id 10 opened twice (slots 1 then
2), the stop event pops slot 1 — the earliest-opened slot, not the
most-recently-opened slot 2 that the claim predicts; and the popped slot 1
is immediately reused by the next start even though id 10's association list
is not yet empty. -/
theorem slur_stop_counterexample :
    processSlurEvents [.start 10, .start 10, .stop 10, .start 20] =
      ([.start 1, .start 2, .stop 1, .start 1], 0)
    ∧ SlurEvent.stop 1 ≠ SlurEvent.stop 2 := by
  refine ⟨by decide, by decide⟩

/-- Claim C8, amended: a stop with external id `K` pops the earliest-opened
slot still associated with `K` (FIFO per external id); the popped slot
leaves the in-use multiset immediately, and `K`'s binding is deleted once
its association list becomes empty. -/
theorem slur_stop_fifo :
    (∀ (st : SlurState) (k o : ℕ) (t : List ℕ),
      List.lookup k st = some (o :: t) →
      slurStep st (.stop k) = (popHeadOrDelete st k, .stop o, false))
    ∧ (∀ (st : SlurState) (k o : ℕ), (st.map Prod.fst).Nodup →
        List.lookup k st = some [o] →
        List.lookup k (popHeadOrDelete st k) = none)
    ∧ (∀ (st : SlurState) (k o : ℕ) (t : List ℕ),
        List.lookup k st = some (o :: t) →
        (usedNumbers (popHeadOrDelete st k)).count o + 1 =
          (usedNumbers st).count o)
    ∧ processSlurEvents [.start 10, .start 10, .stop 10, .stop 10] =
        ([.start 1, .start 2, .stop 1, .stop 2], 0) := by
  refine ⟨?_, ?_, ?_, by decide⟩
  · intro st k o t h
    simp [slurStep, h]
  · intro st k o hnd h
    induction st with
    | nil => simp at h
    | cons kv rest ih =>
      obtain ⟨k', l⟩ := kv
      by_cases hkk : k' = k
      · subst hkk
        simp [List.lookup] at h
        subst h
        simp only [List.map_cons, List.nodup_cons] at hnd
        show List.lookup k' (popHeadOrDelete ((k', [o]) :: rest) k') = none
        simp only [popHeadOrDelete, if_pos rfl]
        exact lookup_eq_none_of_not_mem_keys k' rest hnd.1
      · simp only [List.map_cons, List.nodup_cons] at hnd
        rw [List.lookup] at h
        rw [show (k == k') = false by simp [beq_iff_eq]; omega] at h
        simp only [popHeadOrDelete, if_neg hkk]
        rw [List.lookup, show (k == k') = false by simp [beq_iff_eq]; omega]
        exact ih hnd.2 h
  · intro st k o t h
    induction st with
    | nil => simp at h
    | cons kv rest ih =>
      obtain ⟨k', l⟩ := kv
      by_cases hkk : k' = k
      · subst hkk
        simp [List.lookup] at h
        subst h
        cases t with
        | nil =>
          simp [popHeadOrDelete, usedNumbers, List.count_cons, List.count_append]
        | cons x xs =>
          simp [popHeadOrDelete, usedNumbers, List.count_cons, List.count_append]
      · rw [List.lookup] at h
        rw [show (k == k') = false by simp [beq_iff_eq]; omega] at h
        have := ih h
        simp only [popHeadOrDelete, if_neg hkk]
        simp only [usedNumbers, List.map_cons, List.flatten_cons,
          List.count_append] at this ⊢
        omega

/-- Witness for `slur_stop_fifo`: stopping id 10 when it holds slots
[1, 2] pops slot 1. -/
theorem slur_stop_fifo_witness :
    slurStep [(10, [1, 2])] (.stop 10) =
      (popHeadOrDelete [(10, [1, 2])] 10, .stop 1, false) :=
  slur_stop_fifo.1 [(10, [1, 2])] 10 1 [2] (by decide)

/-- Claim C9: a start event arriving when all six output slots are in use is
non-fatal: a warning is recorded, the dict state and the event's id are left
untouched, and in the seven-slur scenario only the seventh slur's start/stop
pair is left without a valid output number while the six open slurs keep
numbers 1..6. -/
theorem slur_overflow_nonfatal :
    (∀ (st : SlurState) (k : ℕ), availableSlurNumbers st = [] →
      slurStep st (.start k) = (st, .start k, true))
    ∧ processSlurEvents
        [.start 10, .start 20, .start 30, .start 40, .start 50, .start 60,
         .start 70, .stop 10, .stop 20, .stop 30, .stop 40, .stop 50,
         .stop 60, .stop 70] =
      ([.start 1, .start 2, .start 3, .start 4, .start 5, .start 6,
        .start 70, .stop 1, .stop 2, .stop 3, .stop 4, .stop 5, .stop 6,
        .stop 70], 2) := by
  refine ⟨?_, by decide⟩
  intro st k h
  simp [slurStep, h]

/-- Witness for `slur_overflow_nonfatal`: with six ids open on slots 1..6, a
seventh start is left untouched apart from the warning. -/
theorem slur_overflow_nonfatal_witness :
    slurStep fullSlurState (.start 70) = (fullSlurState, .start 70, true) :=
  slur_overflow_nonfatal.1 fullSlurState 70 (by decide)


/-! ## Measure divisions ceiling (claim C2) -/

/-- The two-argument branch of `_least_common_multiple` is `Nat.lcm`. -/
lemma two_arg_lcm (a b : ℕ) : a * b / Nat.gcd a b = Nat.lcm a b := rfl

/-- Claim C2: provided the LCM of the leaves' `min_denominator` values is at
most 1024, the divisions value of `Measure.render` never exceeds 1024; when
the leaf LCM combined with the direction-displacement LCM stays within 1024
it is used exactly, and when it exceeds 1024 the result is the leaf-only LCM
scaled by the largest power of two that keeps the product within 1024. -/
theorem measure_divisions_ceiling :
    ∀ leafDens dirDens : List ℕ,
      0 < leastCommonMultiple leafDens →
      leastCommonMultiple leafDens ≤ 1024 →
      computeDivisions leafDens dirDens ≤ 1024
      ∧ (Nat.lcm (leastCommonMultiple dirDens) (leastCommonMultiple leafDens)
            ≤ 1024 →
          computeDivisions leafDens dirDens =
            Nat.lcm (leastCommonMultiple dirDens)
              (leastCommonMultiple leafDens))
      ∧ (1024 < Nat.lcm (leastCommonMultiple dirDens)
            (leastCommonMultiple leafDens) →
          ∃ k, computeDivisions leafDens dirDens =
              leastCommonMultiple leafDens * 2 ^ k
            ∧ leastCommonMultiple leafDens * 2 ^ k ≤ 1024
            ∧ 1024 < leastCommonMultiple leafDens * 2 ^ (k + 1)) := by
  intro leafDens dirDens hpos hle
  set num := leastCommonMultiple leafDens with hnum
  match dirDens with
  | [] =>
    refine ⟨hle, ?_, ?_⟩
    · intro _
      show num = Nat.lcm (leastCommonMultiple []) num
      simp [leastCommonMultiple]
    · intro hgt
      rw [show leastCommonMultiple [] = 1 from rfl, Nat.lcm_one_left] at hgt
      omega
  | d :: ds =>
    set dirLcm := leastCommonMultiple (d :: ds) with hdl
    have hcd : computeDivisions leafDens (d :: ds) =
        if Nat.lcm dirLcm num ≤ 1024 then Nat.lcm dirLcm num
        else num * max 1 (2 ^ Nat.log2 (1024 / num)) := rfl
    by_cases hideal : Nat.lcm dirLcm num ≤ 1024
    · rw [hcd, if_pos hideal]
      exact ⟨hideal, fun _ => rfl, fun hgt => absurd hideal (by omega)⟩
    · rw [hcd, if_neg hideal]
      have h1 : 1 ≤ 1024 / num := (Nat.one_le_div_iff hpos).mpr hle
      have hk := Nat.log2_self_le (n := 1024 / num) (by omega)
      have hk2 : 1024 / num < 2 ^ (Nat.log2 (1024 / num) + 1) :=
        Nat.lt_log2_self
      set k := Nat.log2 (1024 / num) with hkdef
      have hmax : max 1 (2 ^ k) = 2 ^ k :=
        Nat.max_eq_right Nat.one_le_two_pow
      have hbound : num * 2 ^ k ≤ 1024 := by
        calc num * 2 ^ k ≤ num * (1024 / num) :=
              Nat.mul_le_mul_left num hk
          _ ≤ 1024 := Nat.mul_div_le 1024 num
      have hstrict : 1024 < num * 2 ^ (k + 1) := by
        have h2 : 1024 / num + 1 ≤ 2 ^ (k + 1) := hk2
        have h3 : num * (1024 / num) + num ≤ num * 2 ^ (k + 1) := by
          calc num * (1024 / num) + num = num * (1024 / num + 1) := by ring
            _ ≤ num * 2 ^ (k + 1) := Nat.mul_le_mul_left num h2
        have h4 := Nat.div_add_mod 1024 num
        have h5 : 1024 % num < num := Nat.mod_lt _ hpos
        omega
      rw [hmax]
      exact ⟨hbound, fun hcon => absurd hcon hideal,
        fun _ => ⟨k, rfl, hbound, hstrict⟩⟩

/-- Witness for `measure_divisions_ceiling`: a leaf LCM of 375 with a
direction denominator 8 gives a combined LCM of 3000 > 1024, clamped to
375 · 2 = 750. -/
theorem measure_divisions_ceiling_witness :
    ∃ k, computeDivisions [375] [8] = leastCommonMultiple [375] * 2 ^ k
      ∧ leastCommonMultiple [375] * 2 ^ k ≤ 1024
      ∧ 1024 < leastCommonMultiple [375] * 2 ^ (k + 1) :=
  (measure_divisions_ceiling [375] [8] (by decide) (by decide)).2.2 (by decide)


/-! ## Duration decomposition (claim C5) -/

/-- Success characterization of the dot-search loop: starting the search at
dot count `dots`, the result is `(t, d)` exactly when `d` is the first dot
count at or after `dots`, and at most `max dots maxDots`, whose reduced
length hits the ladder. -/
lemma dotsSearch_ok_iff (length : ℚ) (maxDots : ℕ) :
    ∀ dots t d, dotsSearch length maxDots dots = .ok (t, d) ↔
      (dots ≤ d ∧ d ≤ max dots maxDots ∧
        lengthToNoteType (length / dotMultiplier d) = some t ∧
        ∀ j, dots ≤ j → j < d →
          lengthToNoteType (length / dotMultiplier j) = none) := by
  intro dots
  generalize hfuel : maxDots - dots = fuel
  induction fuel generalizing dots with
  | zero =>
    intro t d
    rw [dotsSearch]
    cases hl : lengthToNoteType (length / dotMultiplier dots) with
    | some t' =>
      constructor
      · intro h
        cases h
        exact ⟨le_refl _, Nat.le_max_left _ _, hl, fun j h1 h2 => by omega⟩
      · rintro ⟨h1, h2, h3, h4⟩
        have hd : d = dots := by
          by_contra hne
          have := h4 dots (le_refl _) (by omega)
          rw [this] at hl
          cases hl
        subst hd
        rw [h3] at hl
        cases hl
        rfl
    | none =>
      rw [dif_pos (by omega)]
      constructor
      · intro h; cases h
      · rintro ⟨h1, h2, h3, h4⟩
        have hd : d = dots := by
          have := Nat.max_eq_left (show maxDots ≤ dots by omega)
          omega
        subst hd
        rw [h3] at hl
        cases hl
  | succ fuel ih =>
    intro t d
    rw [dotsSearch]
    cases hl : lengthToNoteType (length / dotMultiplier dots) with
    | some t' =>
      constructor
      · intro h
        cases h
        exact ⟨le_refl _, Nat.le_max_left _ _, hl, fun j h1 h2 => by omega⟩
      · rintro ⟨h1, h2, h3, h4⟩
        have hd : d = dots := by
          by_contra hne
          have := h4 dots (le_refl _) (by omega)
          rw [this] at hl
          cases hl
        subst hd
        rw [h3] at hl
        cases hl
        rfl
    | none =>
      rw [dif_neg (by omega)]
      rw [ih (dots + 1) (by omega) t d]
      constructor
      · rintro ⟨h1, h2, h3, h4⟩
        refine ⟨by omega, by omega, h3, fun j hj1 hj2 => ?_⟩
        rcases Nat.eq_or_lt_of_le hj1 with h | h
        · rw [← h]; exact hl
        · exact h4 j h hj2
      · rintro ⟨h1, h2, h3, h4⟩
        have hd : dots < d := by
          by_contra hne
          have hdd : d = dots := by omega
          subst hdd
          rw [h3] at hl
          cases hl
        refine ⟨by omega, by omega, h3, fun j hj1 hj2 => h4 j (by omega) hj2⟩

/-- Failure characterization of the dot-search loop: an error is produced
exactly when no dot count from `dots` to `max dots maxDots` hits the
ladder. -/
lemma dotsSearch_error_iff (length : ℚ) (maxDots : ℕ) :
    ∀ dots, (∃ e, dotsSearch length maxDots dots = .error e) ↔
      (∀ j, dots ≤ j → j ≤ max dots maxDots →
        lengthToNoteType (length / dotMultiplier j) = none) := by
  intro dots
  generalize hfuel : maxDots - dots = fuel
  induction fuel generalizing dots with
  | zero =>
    rw [dotsSearch]
    cases hl : lengthToNoteType (length / dotMultiplier dots) with
    | some t' =>
      constructor
      · rintro ⟨e, h⟩; cases h
      · intro h
        have := h dots (le_refl _) (Nat.le_max_left _ _)
        rw [this] at hl
        cases hl
    | none =>
      rw [dif_pos (by omega)]
      constructor
      · intro _ j hj1 hj2
        have : j = dots := by
          have := Nat.max_eq_left (show maxDots ≤ dots by omega)
          omega
        subst this
        exact hl
      · intro _; exact ⟨_, rfl⟩
  | succ fuel ih =>
    rw [dotsSearch]
    cases hl : lengthToNoteType (length / dotMultiplier dots) with
    | some t' =>
      constructor
      · rintro ⟨e, h⟩; cases h
      · intro h
        have := h dots (le_refl _) (Nat.le_max_left _ _)
        rw [this] at hl
        cases hl
    | none =>
      rw [dif_neg (by omega)]
      rw [ih (dots + 1) (by omega)]
      constructor
      · intro h j hj1 hj2
        rcases Nat.eq_or_lt_of_le hj1 with he | he
        · rw [← he]; exact hl
        · exact h j he (by omega)
      · intro h j hj1 hj2
        exact h j (by omega) (by omega)

/-- Claim C5, counterexample: with `max_dots_allowed = 0` the claim demands
an error for the dotted-quarter length 3/2 (no dot count `d` with
`1 ≤ d ≤ 0` exists), but the loop tests `d = 1` before checking the bound
and succeeds. -/
theorem dots_limit_counterexample :
    getNoteTypeAndNumberOfDots (3/2) 0 = .ok ("quarter", 1)
    ∧ (∀ d : ℕ, ¬(1 ≤ d ∧ d ≤ 0))
    ∧ ∀ e, (Except.ok ("quarter", 1) : Except String (String × ℕ)) ≠
        .error e := by
  refine ⟨?_, by omega, by intro e h; cases h⟩
  have h0 : lengthToNoteType (3/2 : ℚ) = none := by
    norm_num [lengthToNoteType]
  have h1 : lengthToNoteType ((3/2 : ℚ) / dotMultiplier 1) = some "quarter" := by
    norm_num [lengthToNoteType, dotMultiplier]
  rw [getNoteTypeAndNumberOfDots, h0, dotsSearch, h1]

/-- Claim C5, amended: an exact ladder length returns 0 dots; otherwise the
result is `(t, d)` for the smallest `d` with `1 ≤ d ≤ max 1 max_dots` whose
reduced length `length / ((2^(d+1)-1)/2^d)` is a ladder entry, and an error
is raised iff no such `d` exists — the bound is `max 1 max_dots` rather than
the claimed `max_dots`, because one dot is always tried before the bound is
first checked. -/
theorem note_type_dots_characterization (length : ℚ) (maxDots : ℕ) :
    (∀ t, lengthToNoteType length = some t →
      getNoteTypeAndNumberOfDots length maxDots = .ok (t, 0))
    ∧ (lengthToNoteType length = none →
        (∀ t d, getNoteTypeAndNumberOfDots length maxDots = .ok (t, d) ↔
          (1 ≤ d ∧ d ≤ max 1 maxDots ∧
            lengthToNoteType (length / dotMultiplier d) = some t ∧
            ∀ j, 1 ≤ j → j < d →
              lengthToNoteType (length / dotMultiplier j) = none))
        ∧ ((∃ e, getNoteTypeAndNumberOfDots length maxDots = .error e) ↔
            ∀ d, 1 ≤ d → d ≤ max 1 maxDots →
              lengthToNoteType (length / dotMultiplier d) = none)) := by
  constructor
  · intro t h
    rw [getNoteTypeAndNumberOfDots, h]
  · intro h
    constructor
    · intro t d
      rw [getNoteTypeAndNumberOfDots, h]
      exact dotsSearch_ok_iff length maxDots 1 t d
    · rw [getNoteTypeAndNumberOfDots, h]
      exact dotsSearch_error_iff length maxDots 1

/-- Helper fact: 3/4 is not a ladder entry. -/
lemma ladder_three_quarters : lengthToNoteType (3/4 : ℚ) = none := by
  norm_num [lengthToNoteType]

/-- Helper fact: 3/4 divided by the one-dot multiplier is the eighth-note
length. -/
lemma ladder_three_quarters_dot :
    lengthToNoteType ((3/4 : ℚ) / dotMultiplier 1) = some "eighth" := by
  norm_num [lengthToNoteType, dotMultiplier]

/-- Witness for `note_type_dots_characterization`: the dotted-eighth length
3/4 with the default bound 4 resolves to one dot on the eighth ladder
entry. -/
theorem note_type_dots_characterization_witness :
    getNoteTypeAndNumberOfDots (3/4) 4 = .ok ("eighth", 1) :=
  ((note_type_dots_characterization (3/4) 4).2 ladder_three_quarters).1
    "eighth" 1 |>.mpr
    ⟨le_refl 1, by decide, ladder_three_quarters_dot,
     fun j h1 h2 => absurd (Nat.lt_of_le_of_lt h1 h2) (Nat.lt_irrefl 1)⟩


/-! ## Dict-update lemmas for the beam maps (claims C3, C4) -/

/-- Assigning an absent key appends the binding. -/
lemma setKey_of_not_mem (k : ℕ) (v : String) :
    ∀ b : List (ℕ × String), k ∉ b.map Prod.fst →
      setKey b k v = b ++ [(k, v)] := by
  intro b
  induction b with
  | nil => intro _; rfl
  | cons kv rest ih =>
    obtain ⟨k', v'⟩ := kv
    intro h
    simp only [List.map_cons, List.mem_cons] at h
    push_neg at h
    rw [setKey, if_neg (fun he => h.1 he.symm), ih h.2]
    rfl

/-- Looking up the just-assigned key returns the assigned value. -/
lemma lookup_setKey_self (k : ℕ) (v : String) :
    ∀ b : List (ℕ × String), List.lookup k (setKey b k v) = some v := by
  intro b
  induction b with
  | nil => simp [setKey, List.lookup]
  | cons kv rest ih =>
    obtain ⟨k', v'⟩ := kv
    by_cases h : k' = k
    · rw [setKey, if_pos h]
      simp [List.lookup]
    · rw [setKey, if_neg h, List.lookup,
        show (k == k') = false from beq_eq_false_iff_ne.mpr (fun he => h he.symm)]
      exact ih

/-- Assigning one key does not change the lookup of another. -/
lemma lookup_setKey_ne (k k2 : ℕ) (v : String) (hne : k2 ≠ k) :
    ∀ b : List (ℕ × String),
      List.lookup k2 (setKey b k v) = List.lookup k2 b := by
  have hbf : (k2 == k) = false := beq_eq_false_iff_ne.mpr hne
  intro b
  induction b with
  | nil => simp [setKey, List.lookup, hbf]
  | cons kv rest ih =>
    obtain ⟨k', v'⟩ := kv
    by_cases h : k' = k
    · have hbf2 : (k2 == k') = false :=
        beq_eq_false_iff_ne.mpr (fun he => hne (he.trans h))
      rw [setKey, if_pos h]
      simp [List.lookup, hbf, hbf2]
    · rw [setKey, if_neg h]
      by_cases h2 : k2 = k'
      · simp [List.lookup, h2]
      · have hbf2 : (k2 == k') = false := beq_eq_false_iff_ne.mpr h2
        simp [List.lookup, hbf2, ih]

/-- Re-assigning the value a key already holds leaves the dict unchanged. -/
lemma setKey_of_lookup_self (k : ℕ) (v : String) :
    ∀ b : List (ℕ × String), List.lookup k b = some v → setKey b k v = b := by
  intro b
  induction b with
  | nil => intro h; cases h
  | cons kv rest ih =>
    obtain ⟨k', v'⟩ := kv
    intro h
    by_cases hk : k = k'
    · subst hk
      rw [List.lookup] at h
      simp only [beq_self_eq_true] at h
      cases h
      rw [setKey, if_pos rfl]
    · rw [List.lookup, show (k == k') = false from
        beq_eq_false_iff_ne.mpr hk] at h
      rw [setKey, if_neg (fun he => hk he.symm), ih h]

/-- A successful lookup pair is a member of the association list. -/
lemma mem_of_lookup (k : ℕ) (v : String) :
    ∀ b : List (ℕ × String), List.lookup k b = some v → (k, v) ∈ b := by
  intro b
  induction b with
  | nil => intro h; cases h
  | cons kv rest ih =>
    obtain ⟨k', v'⟩ := kv
    intro h
    by_cases hk : k = k'
    · subst hk
      rw [List.lookup] at h
      simp only [beq_self_eq_true] at h
      cases h
      exact List.mem_cons_self _ _
    · rw [List.lookup, show (k == k') = false from
        beq_eq_false_iff_ne.mpr hk] at h
      exact List.mem_cons_of_mem _ (ih h)

/-- Writing pairs whose keys avoid `k` does not change `k`'s lookup. -/
lemma lookup_writePairs_not_mem (k : ℕ) :
    ∀ (ps b : List (ℕ × String)), k ∉ ps.map Prod.fst →
      List.lookup k (writePairs b ps) = List.lookup k b := by
  intro ps
  induction ps with
  | nil => intro b _; rfl
  | cons kv rest ih =>
    obtain ⟨k0, v0⟩ := kv
    intro b h
    simp only [List.map_cons, List.mem_cons] at h
    push_neg at h
    show List.lookup k (writePairs (setKey b k0 v0) rest) = _
    rw [ih (setKey b k0 v0) h.2, lookup_setKey_ne k0 k v0 h.1]

/-- Writing the same pairs twice is the same as writing them once, provided
the keys are distinct. -/
lemma writePairs_idem :
    ∀ ps b : List (ℕ × String), (ps.map Prod.fst).Nodup →
      writePairs (writePairs b ps) ps = writePairs b ps := by
  intro ps
  induction ps with
  | nil => intro b _; rfl
  | cons kv rest ih =>
    obtain ⟨k0, v0⟩ := kv
    intro b hnd
    simp only [List.map_cons, List.nodup_cons] at hnd
    show writePairs (setKey (writePairs (setKey b k0 v0) rest) k0 v0) rest = _
    have hlk : List.lookup k0 (writePairs (setKey b k0 v0) rest) = some v0 := by
      rw [lookup_writePairs_not_mem k0 rest _ hnd.1, lookup_setKey_self]
    rw [setKey_of_lookup_self k0 v0 _ hlk]
    exact ih (setKey b k0 v0) hnd.2

/-- Every written pair is present in the resulting dict (distinct keys). -/
lemma pair_mem_writePairs (k : ℕ) (v : String) :
    ∀ ps b : List (ℕ × String), (ps.map Prod.fst).Nodup → (k, v) ∈ ps →
      (k, v) ∈ writePairs b ps := by
  intro ps
  induction ps with
  | nil => intro b _ h; cases h
  | cons kv rest ih =>
    obtain ⟨k0, v0⟩ := kv
    intro b hnd hm
    simp only [List.map_cons, List.nodup_cons] at hnd
    rcases List.mem_cons.mp hm with he | hm2
    · cases he
      show (k, v) ∈ writePairs (setKey b k v) rest
      apply mem_of_lookup
      rw [lookup_writePairs_not_mem k rest _ hnd.1, lookup_setKey_self]
    · exact ih (setKey b k0 v0) hnd.2 hm2

/-- Writing pairs with fresh, distinct keys appends them in order. -/
lemma writePairs_append :
    ∀ ps b : List (ℕ × String), (ps.map Prod.fst).Nodup →
      (∀ k ∈ ps.map Prod.fst, k ∉ b.map Prod.fst) →
      writePairs b ps = b ++ ps := by
  intro ps
  induction ps with
  | nil => intro b _ _; simp [writePairs]
  | cons kv rest ih =>
    obtain ⟨k0, v0⟩ := kv
    intro b hnd hdisj
    simp only [List.map_cons, List.nodup_cons] at hnd
    show writePairs (setKey b k0 v0) rest = _
    rw [setKey_of_not_mem k0 v0 b
      (hdisj k0 (by simp))]
    rw [ih (b ++ [(k0, v0)]) hnd.2 ?_]
    · simp
    · intro k hk
      simp only [List.map_append, List.mem_append, List.map_cons,
        List.map_nil, List.mem_cons]
      push_neg
      refine ⟨hdisj k (by simp [hk]), ?_, fun h => absurd h (List.not_mem_nil k)⟩
      intro he
      subst he
      exact hnd.1 hk


/-! ## Characterizing the depth loop (claims C3, C4) -/

/-- Head activity is the head's own beam requirement. -/
lemma activeB_cons_zero (x : BLeaf) (xs : List BLeaf) (d : ℕ) :
    activeB (x :: xs) 0 d = decide (d ≤ x.numBeams) := by
  simp [activeB]

/-- Activity shifts across a cons. -/
lemma activeB_cons_succ (x : BLeaf) (xs : List BLeaf) (j d : ℕ) :
    activeB (x :: xs) (j + 1) d = activeB xs j d := by
  simp [activeB]

/-- Beam count shifts across a cons. -/
lemma nbAt_cons_succ (x : BLeaf) (xs : List BLeaf) (j : ℕ) :
    nbAt (x :: xs) (j + 1) = nbAt xs j := by
  simp [nbAt]

/-- Start time of the head is zero. -/
lemma startTime_zero (ls : List BLeaf) : startTime ls 0 = 0 := rfl

/-- Start time shifts across a cons. -/
lemma startTime_cons_succ (x : BLeaf) (xs : List BLeaf) (j : ℕ) :
    startTime (x :: xs) (j + 1) = x.writtenLength + startTime xs j := by
  simp [startTime, List.take_succ_cons]

/-- The previous-activity flag threaded into the tail agrees with the
activity of the head. -/
lemma prevActiveB_cons (x : BLeaf) (xs : List BLeaf) (la : Bool) (j d : ℕ) :
    prevActiveB xs (decide (d ≤ x.numBeams)) j d =
      prevActiveB (x :: xs) la (j + 1) d := by
  cases j with
  | zero => simp [prevActiveB, activeB_cons_zero]
  | succ m => simp [prevActiveB, activeB_cons_succ]

/-- The pass value of a tail leaf agrees with its pass value in the full
list. -/
lemma passValue_cons (x : BLeaf) (xs : List BLeaf) (la : Bool) (t : ℚ)
    (j d : ℕ) :
    passValue xs (decide (d ≤ x.numBeams)) t j d =
      passValue (x :: xs) la t (j + 1) d := by
  unfold passValue
  rw [prevActiveB_cons x xs la j d, activeB_cons_succ, nbAt_cons_succ]

/-- One unfolding of the depth loop. -/
lemma loopDepth_cons (d : ℕ) (t : ℚ) (la : Bool) (leaf : BLeaf)
    (rest : List BLeaf) :
    loopDepth d t la (leaf :: rest) =
      (if activeB (leaf :: rest) 0 d then { leaf with beams := setKey leaf.beams d (passValue (leaf :: rest) la t 0 d) } else leaf)
        :: loopDepth d (t + leaf.writtenLength)
          (decide (d ≤ leaf.numBeams)) rest := by
  cases rest with
  | nil =>
    simp only [loopDepth, activeB, passValue, prevActiveB, nbAt,
      List.getElem?_cons_zero, List.getElem?_cons_succ, List.getElem?_nil]
  | cons l2 r =>
    simp only [loopDepth, activeB, passValue, prevActiveB, nbAt,
      List.getElem?_cons_zero, List.getElem?_cons_succ, List.getElem?_nil]

/-- Pointwise description of one pass of the depth loop: the leaf at index
`i` is updated at level `d` exactly when active there, receiving the value
computed from its neighbours' activity and its absolute start time. -/
lemma loopDepth_getElem (d : ℕ) :
    ∀ (ls : List BLeaf) (t : ℚ) (la : Bool) (i : ℕ),
      (loopDepth d t la ls)[i]? = (ls[i]?).map fun leaf =>
        if activeB ls i d then { leaf with beams := setKey leaf.beams d (passValue ls la (t + startTime ls i) i d) } else leaf := by
  intro ls
  induction ls with
  | nil => intro t la i; simp [loopDepth]
  | cons leaf rest ih =>
    intro t la i
    rw [loopDepth_cons]
    cases i with
    | zero =>
      simp only [List.getElem?_cons_zero, Option.map_some']
      rw [startTime_zero, add_zero]
    | succ j =>
      simp only [List.getElem?_cons_succ]
      rw [ih (t + leaf.writtenLength) (decide (d ≤ leaf.numBeams)) j]
      cases hj : rest[j]? with
      | none => rfl
      | some l =>
        simp only [Option.map_some']
        rw [activeB_cons_succ, startTime_cons_succ, ← add_assoc,
          passValue_cons leaf rest la (t + leaf.writtenLength + startTime rest j) j d]


/-- A pass of the depth loop does not change any leaf's beam count. -/
lemma loopDepth_map_numBeams (d : ℕ) :
    ∀ (ls : List BLeaf) (t : ℚ) (la : Bool),
      (loopDepth d t la ls).map (·.numBeams) = ls.map (·.numBeams) := by
  intro ls
  induction ls with
  | nil => intro t la; rfl
  | cons leaf rest ih =>
    intro t la
    rw [loopDepth_cons]
    simp only [List.map_cons, ih (t + leaf.writtenLength)]
    congr 1
    by_cases h : activeB (leaf :: rest) 0 d
    · rw [if_pos h]
    · rw [if_neg h]

/-- A pass of the depth loop does not change any leaf's written length. -/
lemma loopDepth_map_writtenLength (d : ℕ) :
    ∀ (ls : List BLeaf) (t : ℚ) (la : Bool),
      (loopDepth d t la ls).map (·.writtenLength) = ls.map (·.writtenLength) := by
  intro ls
  induction ls with
  | nil => intro t la; rfl
  | cons leaf rest ih =>
    intro t la
    rw [loopDepth_cons]
    simp only [List.map_cons, ih (t + leaf.writtenLength)]
    congr 1
    by_cases h : activeB (leaf :: rest) 0 d
    · rw [if_pos h]
    · rw [if_neg h]

/-- Activity only depends on the beam counts. -/
lemma activeB_congr {ls ls' : List BLeaf}
    (h : ls.map (·.numBeams) = ls'.map (·.numBeams)) (i d : ℕ) :
    activeB ls i d = activeB ls' i d := by
  have hh : (ls.map (·.numBeams))[i]? = (ls'.map (·.numBeams))[i]? := by rw [h]
  rw [List.getElem?_map, List.getElem?_map] at hh
  unfold activeB
  cases h1 : ls[i]? with
  | none => rw [h1] at hh; cases h2 : ls'[i]? with
    | none => rfl
    | some l => rw [h2] at hh; cases hh
  | some l =>
    rw [h1] at hh
    cases h2 : ls'[i]? with
    | none => rw [h2] at hh; cases hh
    | some l' =>
      rw [h2] at hh
      simp only [Option.map_some'] at hh
      simp only [Option.some.injEq] at hh
      show decide (d ≤ l.numBeams) = decide (d ≤ l'.numBeams)
      rw [hh]

/-- The beam count at an index only depends on the beam counts. -/
lemma nbAt_congr {ls ls' : List BLeaf}
    (h : ls.map (·.numBeams) = ls'.map (·.numBeams)) (i : ℕ) :
    nbAt ls i = nbAt ls' i := by
  have hh : (ls.map (·.numBeams))[i]? = (ls'.map (·.numBeams))[i]? := by rw [h]
  rw [List.getElem?_map, List.getElem?_map] at hh
  unfold nbAt
  cases h1 : ls[i]? with
  | none => rw [h1] at hh; cases h2 : ls'[i]? with
    | none => rfl
    | some l => rw [h2] at hh; cases hh
  | some l =>
    rw [h1] at hh
    cases h2 : ls'[i]? with
    | none => rw [h2] at hh; cases hh
    | some l' =>
      rw [h2] at hh
      simp only [Option.map_some'] at hh
      simp only [Option.some.injEq] at hh
      show l.numBeams = l'.numBeams
      rw [hh]

/-- The start time at an index only depends on the written lengths. -/
lemma startTime_congr {ls ls' : List BLeaf}
    (h : ls.map (·.writtenLength) = ls'.map (·.writtenLength)) (i : ℕ) :
    startTime ls i = startTime ls' i := by
  unfold startTime
  rw [List.map_take, List.map_take, h]

/-- The spec beam value only depends on the beam counts and written
lengths. -/
lemma specBeamValue_congr {ls ls' : List BLeaf}
    (hn : ls.map (·.numBeams) = ls'.map (·.numBeams))
    (hw : ls.map (·.writtenLength) = ls'.map (·.writtenLength)) (i d : ℕ) :
    specBeamValue ls i d = specBeamValue ls' i d := by
  unfold specBeamValue
  rw [activeB_congr hn (i - 1) d, activeB_congr hn (i + 1) d,
    nbAt_congr hn i, startTime_congr hw i]

/-- Unfolding lemma: no depths, no writes. -/
lemma writeBeamsOver_nil (ls : List BLeaf) (i : ℕ) (b : List (ℕ × String)) :
    writeBeamsOver ls i [] b = b := rfl

/-- Unfolding lemma: the first listed depth writes first. -/
lemma writeBeamsOver_cons (ls : List BLeaf) (i d : ℕ) (ds : List ℕ)
    (b : List (ℕ × String)) :
    writeBeamsOver ls i (d :: ds) b =
      writeBeamsOver ls i ds
        (if activeB ls i d then setKey b d (specBeamValue ls i d) else b) := rfl

/-- The accumulated beam-write function only depends on the beam counts and
written lengths. -/
lemma writeBeamsOver_congr {ls ls' : List BLeaf}
    (hn : ls.map (·.numBeams) = ls'.map (·.numBeams))
    (hw : ls.map (·.writtenLength) = ls'.map (·.writtenLength)) (i : ℕ) :
    ∀ (ds : List ℕ) (b : List (ℕ × String)),
      writeBeamsOver ls i ds b = writeBeamsOver ls' i ds b := by
  intro ds
  induction ds with
  | nil => intro b; rfl
  | cons d rest ih =>
    intro b
    rw [writeBeamsOver_cons, writeBeamsOver_cons, activeB_congr hn i d,
      specBeamValue_congr hn hw i d, ih]

/-- The entry pass value (flag `false`, absolute start time) is the spec
beam value. -/
lemma passValue_start (ls : List BLeaf) (i d : ℕ) :
    passValue ls false (startTime ls i) i d = specBeamValue ls i d := by
  unfold passValue specBeamValue
  have hp : prevActiveB ls false i d = (decide ¬i = 0 && activeB ls (i - 1) d) := by
    cases i with
    | zero => simp [prevActiveB]
    | succ j => simp [prevActiveB]
  rw [hp]

/-- Pointwise description of the full sequence of depth passes: each leaf's
beams dict receives the conditional per-depth writes, everything else is
untouched. -/
lemma foldPasses_getElem (leaves : List BLeaf) :
    ∀ (ds : List ℕ) (ls : List BLeaf),
      ls.map (·.numBeams) = leaves.map (·.numBeams) →
      ls.map (·.writtenLength) = leaves.map (·.writtenLength) →
      ∀ i, (ds.foldl (fun acc d => loopDepth d 0 false acc) ls)[i]? =
        (ls[i]?).map fun l : BLeaf => { l with beams := writeBeamsOver leaves i ds l.beams } := by
  intro ds
  induction ds with
  | nil =>
    intro ls _ _ i
    show ls[i]? = _
    cases h : ls[i]? with
    | none => rfl
    | some l => rfl
  | cons d rest ih =>
    intro ls hn hw i
    show (rest.foldl (fun acc d => loopDepth d 0 false acc) (loopDepth d 0 false ls))[i]? = _
    have hn' : (loopDepth d 0 false ls).map (·.numBeams) = leaves.map (·.numBeams) := by
      rw [loopDepth_map_numBeams, hn]
    have hw' : (loopDepth d 0 false ls).map (·.writtenLength) = leaves.map (·.writtenLength) := by
      rw [loopDepth_map_writtenLength, hw]
    rw [ih (loopDepth d 0 false ls) hn' hw' i, loopDepth_getElem]
    have hact : activeB ls i d = activeB leaves i d := activeB_congr hn i d
    have hval : passValue ls false (0 + startTime ls i) i d = specBeamValue leaves i d := by
      rw [zero_add, passValue_start ls i d]
      exact specBeamValue_congr hn hw i d
    cases h : ls[i]? with
    | none => rfl
    | some l =>
      simp only [Option.map_some']
      rw [hact, hval, writeBeamsOver_cons]
      by_cases hb : activeB leaves i d
      · rw [if_pos hb, if_pos hb]
      · rw [if_neg hb, if_neg hb]


/-! ## From conditional depth writes to explicit pair writes -/

/-- The conditional depth writes are the unconditional writes over the
filtered depth list. -/
lemma writeBeamsOver_eq_filter (leaves : List BLeaf) (i : ℕ) :
    ∀ (ds : List ℕ) (b : List (ℕ × String)),
      writeBeamsOver leaves i ds b =
        (ds.filter (fun d => activeB leaves i d)).foldl
          (fun acc d => setKey acc d (specBeamValue leaves i d)) b := by
  intro ds
  induction ds with
  | nil => intro b; rfl
  | cons d rest ih =>
    intro b
    rw [writeBeamsOver_cons, List.filter_cons]
    by_cases h : activeB leaves i d
    · rw [if_pos h, if_pos (by simp [h]), List.foldl_cons, ih]
    · rw [if_neg h, if_neg (by simp [h]), ih]

/-- The seed of the beam-count maximum fold is a lower bound of the
result. -/
lemma foldl_max_seed_le : ∀ (xs : List BLeaf) (a : ℕ),
    a ≤ xs.foldl (fun m l => max m l.numBeams) a := by
  intro xs
  induction xs with
  | nil => intro a; exact le_refl a
  | cons x xs ih =>
    intro a
    exact le_trans (Nat.le_max_left a x.numBeams) (ih (max a x.numBeams))

/-- Every member's beam count is bounded by the beam-count maximum fold. -/
lemma foldl_max_numBeams_le : ∀ (xs : List BLeaf) (a : ℕ) (l : BLeaf),
    l ∈ xs → l.numBeams ≤ xs.foldl (fun m l => max m l.numBeams) a := by
  intro xs
  induction xs with
  | nil => intro a l h; cases h
  | cons x xs ih =>
    intro a l h
    rcases List.mem_cons.mp h with he | hm
    · subst he
      exact le_trans (Nat.le_max_right a l.numBeams)
        (foldl_max_seed_le xs (max a l.numBeams))
    · exact ih (max a x.numBeams) l hm

/-- Every leaf's beam count is bounded by the group maximum. -/
lemma numBeams_le_maxNumBeams (leaves : List BLeaf) (l : BLeaf)
    (h : l ∈ leaves) : l.numBeams ≤ maxNumBeams leaves :=
  foldl_max_numBeams_le leaves 0 l h

/-- The group maximum only depends on the beam counts. -/
lemma maxNumBeams_congr {ls ls' : List BLeaf}
    (h : ls.map (·.numBeams) = ls'.map (·.numBeams)) :
    maxNumBeams ls = maxNumBeams ls' := by
  have e1 : maxNumBeams ls = (ls.map (·.numBeams)).foldl max 0 :=
    (List.foldl_map _ _ _ _).symm
  have e2 : maxNumBeams ls' = (ls'.map (·.numBeams)).foldl max 0 :=
    (List.foldl_map _ _ _ _).symm
  rw [e1, e2, h]

/-- Filtering an initial range by a level bound truncates it. -/
lemma filter_range'_le (nb m : ℕ) (h : nb ≤ m) :
    (List.range' 1 m).filter (fun d => decide (d ≤ nb)) =
      List.range' 1 nb := by
  have hsplit : List.range' 1 m =
      List.range' 1 nb ++ List.range' (1 + nb) (m - nb) := by
    have h0 := List.range'_append 1 nb (m - nb) 1
    simp only [one_mul] at h0
    rw [show m - nb + nb = m by omega] at h0
    exact h0.symm
  rw [hsplit, List.filter_append]
  have h1 : (List.range' 1 nb).filter (fun d => decide (d ≤ nb)) =
      List.range' 1 nb := by
    apply List.filter_eq_self.mpr
    intro d hd
    have := List.mem_range'_1.mp hd
    simp
    omega
  have h2 : (List.range' (1 + nb) (m - nb)).filter
      (fun d => decide (d ≤ nb)) = [] := by
    apply List.filter_eq_nil_iff.mpr
    intro d hd
    have := List.mem_range'_1.mp hd
    simp
    omega
  rw [h1, h2, List.append_nil]

/-- Folding keyed writes of computed values is writing the value pairs. -/
lemma foldl_setKey_eq_writePairs (v : ℕ → String) :
    ∀ (ds : List ℕ) (b : List (ℕ × String)),
      ds.foldl (fun acc d => setKey acc d (v d)) b =
        writePairs b (ds.map fun d => (d, v d)) := by
  intro ds b
  unfold writePairs
  rw [List.foldl_map]

/-- The keys of the spec-assigned pairs are the levels 1..numBeams. -/
lemma specAssigned_keys (leaves : List BLeaf) (i : ℕ) :
    (specAssignedBeams leaves i).map Prod.fst =
      List.range' 1 (nbAt leaves i) := by
  unfold specAssignedBeams
  rw [List.map_map]
  exact List.map_id _

/-- The keys of the spec-assigned pairs are distinct. -/
lemma specAssigned_keys_nodup (leaves : List BLeaf) (i : ℕ) :
    ((specAssignedBeams leaves i).map Prod.fst).Nodup := by
  rw [specAssigned_keys]
  exact List.nodup_range' _ _

/-- For an in-range leaf, the total effect of the depth passes on its beams
dict is the dict-write of its spec-assigned pairs. -/
lemma writeBeams_eq_writePairs (leaves : List BLeaf) (i : ℕ) (l : BLeaf)
    (h : leaves[i]? = some l) (b : List (ℕ × String)) :
    writeBeams leaves i b = writePairs b (specAssignedBeams leaves i) := by
  unfold writeBeams
  rw [writeBeamsOver_eq_filter]
  have hfa : (fun d => activeB leaves i d) =
      (fun d => decide (d ≤ nbAt leaves i)) := by
    funext d
    unfold activeB nbAt
    rw [h]
  have hnb : nbAt leaves i ≤ maxNumBeams leaves := by
    have hm : l ∈ leaves := List.getElem?_mem h
    have : nbAt leaves i = l.numBeams := by unfold nbAt; rw [h]
    rw [this]
    exact numBeams_le_maxNumBeams leaves l hm
  rw [hfa, filter_range'_le _ _ hnb, foldl_setKey_eq_writePairs]
  rfl

/-- For an in-range leaf whose beams dict is empty, the depth passes produce
exactly the spec-assigned pairs. -/
lemma writeBeams_empty (leaves : List BLeaf) (i : ℕ) (l : BLeaf)
    (h : leaves[i]? = some l) :
    writeBeams leaves i [] = specAssignedBeams leaves i := by
  rw [writeBeams_eq_writePairs leaves i l h]
  rw [writePairs_append _ _ (specAssigned_keys_nodup leaves i)
    (fun k _ => by simp)]
  rfl


/-! ## The clearing pass and the spec-side description -/

/-- Pointwise description of the clearing pass. -/
lemma clearAllHookLeaves_getElem (ls : List BLeaf) (i : ℕ) :
    (clearAllHookLeaves ls)[i]? = ls[i]?.map fun leaf =>
      if leaf.beams.all (fun kv => strHasHook kv.2) then
        { leaf with beams := [] }
      else leaf := by
  unfold clearAllHookLeaves
  rw [List.getElem?_map]

/-- The clearing pass does not change any leaf's beam count. -/
lemma clear_map_numBeams (ls : List BLeaf) :
    (clearAllHookLeaves ls).map (·.numBeams) = ls.map (·.numBeams) := by
  induction ls with
  | nil => rfl
  | cons x xs ih =>
    show (_ :: clearAllHookLeaves xs).map (·.numBeams) = _
    simp only [List.map_cons, ih]
    congr 1
    by_cases h : x.beams.all (fun kv => strHasHook kv.2)
    · rw [if_pos h]
    · rw [if_neg h]

/-- The clearing pass does not change any leaf's written length. -/
lemma clear_map_writtenLength (ls : List BLeaf) :
    (clearAllHookLeaves ls).map (·.writtenLength) = ls.map (·.writtenLength) := by
  induction ls with
  | nil => rfl
  | cons x xs ih =>
    show (_ :: clearAllHookLeaves xs).map (·.writtenLength) = _
    simp only [List.map_cons, ih]
    congr 1
    by_cases h : x.beams.all (fun kv => strHasHook kv.2)
    · rw [if_pos h]
    · rw [if_neg h]

/-- The depth passes do not change any leaf's beam count. -/
lemma passes_map_numBeams :
    ∀ (ds : List ℕ) (ls : List BLeaf),
      (ds.foldl (fun acc d => loopDepth d 0 false acc) ls).map (·.numBeams) =
        ls.map (·.numBeams) := by
  intro ds
  induction ds with
  | nil => intro ls; rfl
  | cons d rest ih =>
    intro ls
    show ((rest.foldl _ (loopDepth d 0 false ls)).map (·.numBeams)) = _
    rw [ih (loopDepth d 0 false ls), loopDepth_map_numBeams]

/-- The depth passes do not change any leaf's written length. -/
lemma passes_map_writtenLength :
    ∀ (ds : List ℕ) (ls : List BLeaf),
      (ds.foldl (fun acc d => loopDepth d 0 false acc) ls).map (·.writtenLength) =
        ls.map (·.writtenLength) := by
  intro ds
  induction ds with
  | nil => intro ls; rfl
  | cons d rest ih =>
    intro ls
    show ((rest.foldl _ (loopDepth d 0 false ls)).map (·.writtenLength)) = _
    rw [ih (loopDepth d 0 false ls), loopDepth_map_writtenLength]

/-- Pointwise description of the whole depth-pass stage. -/
lemma beamPasses_getElem (leaves : List BLeaf) (i : ℕ) :
    (beamPasses leaves)[i]? =
      (leaves[i]?).map fun l : BLeaf =>
        { l with beams := writeBeams leaves i l.beams } :=
  foldPasses_getElem leaves (List.range' 1 (maxNumBeams leaves)) leaves
    rfl rfl i

/-- The full render does not change any leaf's beam count. -/
lemma render_map_numBeams (leaves : List BLeaf) :
    (renderContentsBeaming leaves).map (·.numBeams) =
      leaves.map (·.numBeams) := by
  unfold renderContentsBeaming beamPasses
  rw [clear_map_numBeams, passes_map_numBeams]

/-- The full render does not change any leaf's written length. -/
lemma render_map_writtenLength (leaves : List BLeaf) :
    (renderContentsBeaming leaves).map (·.writtenLength) =
      leaves.map (·.writtenLength) := by
  unfold renderContentsBeaming beamPasses
  rw [clear_map_writtenLength, passes_map_writtenLength]

/-- Pointwise description of the spec-side beaming. -/
lemma specBeaming_getElem (leaves : List BLeaf) (i : ℕ) :
    (specBeaming leaves)[i]? = (leaves[i]?).map fun l : BLeaf =>
      { l with beams :=
          if (specAssignedBeams leaves i).all (fun kv =>
              kv.2 = "forward hook" || kv.2 = "backward hook") then []
          else specAssignedBeams leaves i } := by
  unfold specBeaming
  rw [List.getElem?_mapIdx]

/-- The spec beam value is one of the five beam-state strings. -/
lemma specBeamValue_five (leaves : List BLeaf) (i d : ℕ) :
    specBeamValue leaves i d = "continue" ∨ specBeamValue leaves i d = "end"
    ∨ specBeamValue leaves i d = "begin"
    ∨ specBeamValue leaves i d = "forward hook"
    ∨ specBeamValue leaves i d = "backward hook" := by
  unfold specBeamValue
  dsimp only
  split_ifs <;> tauto

/-- On the five beam-state strings, the substring test for `"hook"` agrees
with being one of the two hook states. -/
lemma strHasHook_of_five (s : String)
    (h : s = "continue" ∨ s = "end" ∨ s = "begin" ∨ s = "forward hook"
      ∨ s = "backward hook") :
    strHasHook s = (s = "forward hook" || s = "backward hook") := by
  rcases h with h | h | h | h | h <;> subst h <;> rfl

/-- Pointwise agreement of predicates gives equal `all` results. -/
lemma all_congr_of_mem {α : Type} (p q : α → Bool) :
    ∀ l : List α, (∀ x ∈ l, p x = q x) → l.all p = l.all q := by
  intro l
  induction l with
  | nil => intro _; rfl
  | cons x xs ih =>
    intro h
    simp only [List.all_cons]
    rw [h x (List.mem_cons_self x xs),
      ih fun y hy => h y (List.mem_cons_of_mem x hy)]

/-- The two all-hook conditions agree on the spec-assigned pairs. -/
lemma allHook_cond_eq (leaves : List BLeaf) (i : ℕ) :
    (specAssignedBeams leaves i).all (fun kv => strHasHook kv.2) =
      (specAssignedBeams leaves i).all (fun kv =>
        kv.2 = "forward hook" || kv.2 = "backward hook") := by
  apply all_congr_of_mem
  intro kv hkv
  unfold specAssignedBeams at hkv
  obtain ⟨d, _, rfl⟩ := List.mem_map.mp hkv
  exact strHasHook_of_five _ (specBeamValue_five leaves i d)


/-- Claim C3: for every flat leaf sequence (with fresh beam dicts, as built
by the constructors) the beam engine assigns, at every level a leaf is
active at, `continue`/`end`/`begin` according to its neighbours' activity
and otherwise a forward/backward hook by the parity of its start position in
units of its own note value, and then clears every leaf whose assigned
levels are all hooks; four eighths give [begin, continue, continue, end] at
level 1, and an isolated eighth gets a forward hook at even position
(backward at odd) before being cleared to no beams. -/
theorem beaming_matches_spec :
    (∀ leaves : List BLeaf, (∀ l ∈ leaves, l.beams = []) →
      renderContentsBeaming leaves = specBeaming leaves)
    ∧ renderContentsBeaming fourEighths =
        [⟨1, 1/2, [(1, "begin")]⟩, ⟨1, 1/2, [(1, "continue")]⟩,
         ⟨1, 1/2, [(1, "continue")]⟩, ⟨1, 1/2, [(1, "end")]⟩]
    ∧ beamPasses isolatedEighthEven =
        [⟨1, 1/2, [(1, "forward hook")]⟩, ⟨0, 1, []⟩, ⟨0, 1, []⟩]
    ∧ renderContentsBeaming isolatedEighthEven =
        [⟨1, 1/2, []⟩, ⟨0, 1, []⟩, ⟨0, 1, []⟩]
    ∧ beamPasses isolatedEighthOdd =
        [⟨0, 3/2, []⟩, ⟨1, 1/2, [(1, "backward hook")]⟩, ⟨0, 1, []⟩]
    ∧ renderContentsBeaming isolatedEighthOdd =
        [⟨0, 3/2, []⟩, ⟨1, 1/2, []⟩, ⟨0, 1, []⟩] := by
  refine ⟨?_, rfl, ?_, ?_, ?_, ?_⟩
  · intro leaves hemp
    apply List.ext_getElem?
    intro i
    rw [show renderContentsBeaming leaves =
        clearAllHookLeaves (beamPasses leaves) from rfl,
      clearAllHookLeaves_getElem, beamPasses_getElem, specBeaming_getElem]
    cases h : leaves[i]? with
    | none => rfl
    | some l =>
      have hb : l.beams = [] := hemp l (List.getElem?_mem h)
      simp only [Option.map_some']
      rw [hb, writeBeams_empty leaves i l h]
      by_cases hc : ((specAssignedBeams leaves i).all fun kv =>
          kv.2 = "forward hook" || kv.2 = "backward hook") = true
      · rw [if_pos (by rw [allHook_cond_eq]; exact hc), if_pos hc]
      · rw [if_neg (by rw [allHook_cond_eq]; exact hc), if_neg hc]
  · norm_num [beamPasses, maxNumBeams, isolatedEighthEven, List.range',
      loopDepth, setKey, pythonRound]
  · norm_num [renderContentsBeaming, beamPasses, maxNumBeams,
      isolatedEighthEven, List.range', loopDepth, setKey, pythonRound,
      clearAllHookLeaves, strHasHook, strHasHook.go, charsStartHook]
  · norm_num [beamPasses, maxNumBeams, isolatedEighthOdd, List.range',
      loopDepth, setKey, pythonRound]
  · norm_num [renderContentsBeaming, beamPasses, maxNumBeams,
      isolatedEighthOdd, List.range', loopDepth, setKey, pythonRound,
      clearAllHookLeaves, strHasHook, strHasHook.go, charsStartHook]

/-- Helper fact: the four-eighths example has fresh beam dicts. -/
lemma fourEighths_fresh : ∀ l ∈ fourEighths, l.beams = [] := by
  intro l hl
  simp only [fourEighths, List.mem_cons, List.not_mem_nil, or_false] at hl
  rcases hl with rfl | rfl | rfl | rfl <;> rfl

/-- Witness for `beaming_matches_spec`: the engine and the spec description
agree on the four-eighths example. -/
theorem beaming_matches_spec_witness :
    renderContentsBeaming fourEighths = specBeaming fourEighths :=
  beaming_matches_spec.1 fourEighths fourEighths_fresh


/-! ## Idempotence of the beam engine (claim C4) -/

/-- All values produced by the spec-assigned pairs of an in-range leaf are
hooks whenever every value of a dict-write over them is a hook. -/
lemma assigned_all_hooks (leaves : List BLeaf) (i : ℕ) (l : BLeaf)
    (h : leaves[i]? = some l)
    (hall : ((writeBeams leaves i l.beams).all fun kv => strHasHook kv.2) = true) :
    ((specAssignedBeams leaves i).all fun kv => strHasHook kv.2) = true := by
  rw [List.all_eq_true]
  intro kv hkv
  obtain ⟨k, v⟩ := kv
  have hmem : (k, v) ∈ writeBeams leaves i l.beams := by
    rw [writeBeams_eq_writePairs leaves i l h]
    exact pair_mem_writePairs k v (specAssignedBeams leaves i) l.beams
      (specAssigned_keys_nodup leaves i) hkv
  exact (List.all_eq_true.mp hall) (k, v) hmem

/-- One full render is idempotent on each in-range leaf. -/
lemma clearWrite_idem (leaves : List BLeaf) (i : ℕ) (l : BLeaf)
    (h : leaves[i]? = some l) :
    clearWrite leaves i (clearWrite leaves i l) = clearWrite leaves i l := by
  have hwb : ∀ b, writeBeams leaves i b =
      writePairs b (specAssignedBeams leaves i) :=
    writeBeams_eq_writePairs leaves i l h
  have hnodup := specAssigned_keys_nodup leaves i
  unfold clearWrite
  by_cases hall : ((writeBeams leaves i l.beams).all
      fun kv => strHasHook kv.2) = true
  · rw [if_pos hall]
    have hred : writeBeams leaves i
        ({ l with beams := [] } : BLeaf).beams =
          specAssignedBeams leaves i :=
      writeBeams_empty leaves i l h
    rw [hred, if_pos (assigned_all_hooks leaves i l h hall)]
  · rw [if_neg hall]
    have hred : writeBeams leaves i
        ({ l with beams := writeBeams leaves i l.beams } : BLeaf).beams =
          writeBeams leaves i l.beams := by
      show writeBeams leaves i (writeBeams leaves i l.beams) = _
      rw [hwb l.beams, hwb (writePairs l.beams (specAssignedBeams leaves i))]
      exact writePairs_idem (specAssignedBeams leaves i) l.beams hnodup
    rw [hred, if_neg hall]

/-- Claim C4: running the beam engine twice on unmodified contents leaves
every leaf with exactly the beams of a single run. -/
theorem beaming_idempotent :
    ∀ leaves : List BLeaf,
      renderContentsBeaming (renderContentsBeaming leaves) =
        renderContentsBeaming leaves := by
  intro leaves
  have hn := render_map_numBeams leaves
  have hw := render_map_writtenLength leaves
  have hmax : maxNumBeams (renderContentsBeaming leaves) =
      maxNumBeams leaves := maxNumBeams_congr hn
  apply List.ext_getElem?
  intro i
  have hR : (renderContentsBeaming leaves)[i]? =
      (leaves[i]?).map (clearWrite leaves i) := by
    rw [show renderContentsBeaming leaves =
        clearAllHookLeaves (beamPasses leaves) from rfl,
      clearAllHookLeaves_getElem, beamPasses_getElem]
    cases h : leaves[i]? with
    | none => rfl
    | some l => rfl
  have hL : (renderContentsBeaming (renderContentsBeaming leaves))[i]? =
      ((renderContentsBeaming leaves)[i]?).map (clearWrite leaves i) := by
    rw [show renderContentsBeaming (renderContentsBeaming leaves) =
        clearAllHookLeaves (beamPasses (renderContentsBeaming leaves)) from rfl,
      clearAllHookLeaves_getElem, beamPasses_getElem]
    cases hq : (renderContentsBeaming leaves)[i]? with
    | none => rfl
    | some x =>
      simp only [Option.map_some']
      have hcw : writeBeams (renderContentsBeaming leaves) i x.beams =
          writeBeams leaves i x.beams := by
        unfold writeBeams
        rw [hmax]
        exact writeBeamsOver_congr hn hw i _ x.beams
      rw [hcw]
      rfl
  rw [hL, hR]
  cases h : leaves[i]? with
  | none => rfl
  | some l =>
    simp only [Option.map_some']
    exact congrArg some (clearWrite_idem leaves i l h)

end PMX
